import Mathlib

/-! Shallow embedding of the smart-code-chunker core (src/files.rs,
src/lang_driver.rs, src/hash.rs, src/types.rs).  The tokenizer (the tiktoken
cl100k_base encoder) and the SHA-256 digest come from external crates; both are
modelled as function parameters (`tok : String → Nat` for the length of
`encode_with_special_tokens`, and `hash : String → String` for the hex digest).
Rust string primitives (`str::lines`, `str::contains`, `str::replace`,
`str::trim`, `str::to_lowercase`, `Vec::join`) are modelled by the char-list
functions below. -/

/-- Models Rust `str::starts_with` on char lists: `startsWithChars pat hay`. -/
def startsWithChars : List Char → List Char → Bool
  | [], _ => true
  | _ :: _, [] => false
  | p :: ps, c :: cs => p == c && startsWithChars ps cs

/-- Models Rust `str::contains` (substring containment) on char lists. -/
def containsChars : List Char → List Char → Bool
  | [], pat => pat.isEmpty
  | c :: rest, pat => startsWithChars pat (c :: rest) || containsChars rest pat

/-- Rust `str::contains` lifted to `String`. -/
def strContainsStr (hay pat : String) : Bool :=
  containsChars hay.data pat.data

/-- Models Rust `str::replace` (all non-overlapping occurrences, left to
right); an empty pattern is mapped to the identity (that case never arises
here: the patterns used are `"_item"` and `"_definition"`). -/
def replaceChars (pat rep : List Char) : List Char → List Char
  | [] => []
  | c :: rest =>
    if h : startsWithChars pat (c :: rest) = true ∧ pat ≠ [] then
      rep ++ replaceChars pat rep ((c :: rest).drop pat.length)
    else
      c :: replaceChars pat rep rest
termination_by l => l.length
decreasing_by
  · simp only [List.length_drop, List.length_cons]
    have hp : 0 < pat.length := List.length_pos.mpr h.2
    omega
  · simp only [List.length_cons]
    omega

/-- Rust `str::replace` lifted to `String`. -/
def strReplace (s pat rep : String) : String :=
  String.mk (replaceChars pat.data rep.data s.data)

/-- Models Rust `str::trim` (drop whitespace on both ends). -/
def strTrim (s : String) : String :=
  String.mk (((s.data.dropWhile Char.isWhitespace).reverse.dropWhile
    Char.isWhitespace).reverse)

/-- Models Rust `str::to_lowercase` (character-wise lowering). -/
def strToLower (s : String) : String :=
  String.mk (s.data.map Char.toLower)

/-- Splits a char list at each newline, keeping the (possibly empty) pieces;
the result always has at least one piece. -/
def splitNLChars : List Char → List (List Char)
  | [] => [[]]
  | c :: rest =>
    if c == '\n' then [] :: splitNLChars rest
    else
      match splitNLChars rest with
      | [] => [[c]]
      | p :: ps => (c :: p) :: ps

/-- Drops one trailing carriage return, as Rust `str::lines` does on pieces
that were terminated by a newline. -/
def stripCRChars (l : List Char) : List Char :=
  match l.getLast? with
  | some '\r' => l.dropLast
  | _ => l

/-- Models Rust `str::lines`: split at `\n`, strip a `\r` before each `\n`,
and drop a final empty piece (there is no line after a trailing newline). -/
def rustLines (s : String) : List String :=
  let parts := splitNLChars s.data
  let init := parts.dropLast.map (fun p => String.mk (stripCRChars p))
  match parts.getLast? with
  | some last => if last.isEmpty then init else init ++ [String.mk last]
  | none => init

/-- Models Rust `Vec::<String>::join(sep)`. -/
def joinWith (sep : String) : List String → String
  | [] => ""
  | [s] => s
  | s :: rest => s ++ sep ++ joinWith sep rest

/-- Loop of `split_text_by_token_limit` (src/files.rs lines 148-174): walk the
lines, and before a line would push the running total `current_tokens +
line_len + 1` over the budget, flush a non-empty accumulator as a sub-chunk;
then push the line and add `line_len + 1` to the running total.  Arguments
after the budget: remaining lines, `current_chunk_lines`, `current_tokens`,
`current_line_offset`. -/
def splitLoop (tok : String → Nat) (maxTokens : Nat) :
    List String → List String → Nat → Nat → List (String × Nat × Nat)
  | [], currentChunkLines, currentTokens, currentLineOffset =>
    if currentChunkLines.isEmpty then []
    else [(joinWith "\n" currentChunkLines, currentTokens, currentLineOffset)]
  | line :: rest, currentChunkLines, currentTokens, currentLineOffset =>
    let lineLen := tok line
    if currentTokens + lineLen + 1 > maxTokens then
      if currentChunkLines.isEmpty then
        splitLoop tok maxTokens rest (currentChunkLines ++ [line])
          (currentTokens + lineLen + 1) currentLineOffset
      else
        (joinWith "\n" currentChunkLines, currentTokens, currentLineOffset) ::
          splitLoop tok maxTokens rest [line] (lineLen + 1)
            (currentLineOffset + currentChunkLines.length)
    else
      splitLoop tok maxTokens rest (currentChunkLines ++ [line])
        (currentTokens + lineLen + 1) currentLineOffset

/-- Token-aware splitter (src/files.rs lines 137-177), the tokenizer
abstracted as `tok`.  Returns `(text, token_count, line_offset)` triples. -/
def split_text_by_token_limit (tok : String → Nat) (text : String)
    (maxTokens : Nat) : List (String × Nat × Nat) :=
  if tok text ≤ maxTokens then [(text, tok text, 0)]
  else splitLoop tok maxTokens (rustLines text) [] 0 0

/-- Ordinal-tagged content (src/files.rs line 105):
`format!("{}-{}", sub_text, i)`. -/
def unique_content (subText : String) (i : Nat) : String :=
  subText ++ "-" ++ toString i

/-- Content address (src/files.rs line 106 together with `compute_hash` from
src/hash.rs); the SHA-256 hex digest of the external `sha2` crate is
abstracted as `hash`. -/
def chunk_id (hash : String → String) (subText : String) (i : Nat) : String :=
  hash (unique_content subText i)

/-- Walk of the preceding-sibling chain (src/files.rs lines 180-191): collect
trimmed texts of comment-kinded siblings, skip siblings whose kind is
whitespace-only, stop at the first other sibling.  `sibs` lists
`(kind, source text)` nearest-first. -/
def collectComments : List (String × String) → List String
  | [] => []
  | (kind, text) :: rest =>
    if strContainsStr kind "comment" then strTrim text :: collectComments rest
    else if strTrim kind ≠ "" then []
    else collectComments rest

/-- Models `get_preceding_comments` (src/files.rs lines 179-198). -/
def get_preceding_comments (sibs : List (String × String)) : Option String :=
  let comments := collectComments sibs
  if comments.isEmpty then none else some (joinWith "\n" comments.reverse)

/-- Scope test of the ancestor walk (src/files.rs lines 66-74): substring
matching on the node kind. -/
def scope_kind (kind : String) : Bool :=
  strContainsStr kind "class" || strContainsStr kind "function" ||
    strContainsStr kind "method" || strContainsStr kind "struct" ||
    strContainsStr kind "impl" || strContainsStr kind "mod" ||
    strContainsStr kind "enum"

/-- Rendering of one ancestor scope (src/files.rs lines 75-77): strip `_item`
and `_definition` from the kind, then `kind(name)`, with `?` for a nameless
scope. -/
def render_scope (kind : String) (name : Option String) : String :=
  strReplace (strReplace kind "_item" "") "_definition" "" ++ "(" ++
    name.getD "?" ++ ")"

/-- Ancestor walk (src/files.rs lines 63-80); ancestors are listed innermost
first as `(kind, name extracted by the driver)`, and scope renders are pushed
in walk order. -/
def collectContextParts : List (String × Option String) → List String
  | [] => []
  | p :: rest =>
    if scope_kind p.1 then render_scope p.1 p.2 :: collectContextParts rest
    else collectContextParts rest

/-- Context breadcrumb (src/files.rs lines 82-87): reverse to root-first,
join with `" > "`, `"root"` when empty. -/
def buildContext (ancestors : List (String × Option String)) : String :=
  let parts := (collectContextParts ancestors).reverse
  if parts.isEmpty then "root" else joinWith " > " parts

/-- Fields of a tree-sitter node consulted by `RustDriver::extract_name`
(src/lang_driver.rs lines 19-30): the node kind and the texts of its `name`
and `type` fields, when present. -/
structure NameFields where
  kind : String
  nameField : Option String
  typeField : Option String
deriving DecidableEq

/-- Models `RustDriver::extract_name` (src/lang_driver.rs lines 19-30). -/
def rust_extract_name (n : NameFields) : Option String :=
  match n.nameField with
  | some t => some t
  | none => if n.kind = "impl_item" then n.typeField else none

/-- Driver capability bundle; the tree-sitter grammar and query are external,
so only the language label is carried (src/lang_driver.rs). -/
structure LanguageDriver where
  name : String
deriving DecidableEq

/-- Models `get_driver` (src/lang_driver.rs lines 50-57). -/
def get_driver (extension : String) : Option LanguageDriver :=
  if extension = "rs" then some { name := "Rust" }
  else if extension = "py" then some { name := "Python" }
  else none

/-- Abstraction of one query-matched tree-sitter node as consumed by
`process_file` (src/files.rs lines 59-131): kind, 0-based start row, raw
source text, driver-extracted name, ancestor chain (innermost first, with
driver-extracted names), preceding-sibling chain (nearest first, as
`(kind, text)`). -/
structure NodeInfo where
  kind : String
  startRow : Nat
  rawText : String
  name : Option String
  ancestors : List (String × Option String)
  prevSiblings : List (String × String)
deriving DecidableEq

/-- Output record (src/types.rs `ChunkData`). -/
structure ChunkData where
  id : String
  file_path : String
  language : String
  chunk_type : String
  chunk_name : String
  context : String
  signature : String
  comment : String
  code : String
  start_line : Nat
  end_line : Nat
  token_count : Nat
deriving DecidableEq

/-- Text handed to the splitter (src/files.rs line 99):
`format!("{}\n{}", comments, raw_code_bytes)`. -/
def node_full_text (node : NodeInfo) : String :=
  ((get_preceding_comments node.prevSiblings).getD "") ++ "\n" ++ node.rawText

/-- Per-match record assembly (src/files.rs lines 59-130): one `ChunkData` per
sub-chunk, enumerated in split order. -/
def processNode (hash : String → String) (tok : String → Nat)
    (maxChunkTokens : Nat) (filePath langName : String) (node : NodeInfo) :
    List ChunkData :=
  let context := buildContext node.ancestors
  let chunkName := node.name.getD "anonymous"
  let comments := (get_preceding_comments node.prevSiblings).getD ""
  let signature := (rustLines node.rawText).headD ""
  let subChunks := split_text_by_token_limit tok (node_full_text node) maxChunkTokens
  subChunks.enum.map fun p =>
    { id := chunk_id hash p.2.1 p.1
      file_path := filePath
      language := langName
      chunk_type := node.kind
      chunk_name := chunkName
      context := context
      signature := signature
      comment := comments
      code := p.2.1
      start_line := node.startRow + 1 + p.2.2.2
      end_line := node.startRow + 1 + p.2.2.2 + min (rustLines node.rawText).length 1
      token_count := p.2.2.1 }

/-- Models `process_file` (src/files.rs lines 30-135): driver dispatch on the
lowercased extension; file reading and tree-sitter parsing are external, so
the file content is carried unused and the query matches are a parameter. -/
def process_file (hash : String → String) (tok : String → Nat)
    (maxChunkTokens : Nat) (filePath extension content : String)
    (nodes : List NodeInfo) : Except String (List ChunkData) :=
  match get_driver (strToLower extension) with
  | none => Except.ok []
  | some driver =>
    Except.ok (nodes.flatMap (processNode hash tok maxChunkTokens filePath driver.name))

/-- Per-line running-total contribution: each line costs its token count plus
one (the `+ 1` the splitter loop adds for every pushed line). -/
def tokSum (tok : String → Nat) (ls : List String) : Nat :=
  ls.foldr (fun l acc => tok l + 1 + acc) 0

/-- Canonical shape of the splitter's output on the split path: one sub-chunk
per line group, token counts by `tokSum`, cumulative line offsets. -/
def buildChunks (tok : String → Nat) : List (List String) → Nat → List (String × Nat × Nat)
  | [], _ => []
  | ls :: rest, o =>
    (joinWith "\n" ls, tokSum tok ls, o) :: buildChunks tok rest (o + ls.length)
/-- Unfolding of `joinWith` on a cons with a non-empty tail. -/
theorem joinWith_cons (sep s : String) (rest : List String) (h : rest ≠ []) :
    joinWith sep (s :: rest) = s ++ sep ++ joinWith sep rest := by
  cases rest with
  | nil => exact absurd rfl h
  | cons a l => rfl

/-- A join over an append of two non-empty lists splits at the boundary. -/
theorem joinWith_append (sep : String) :
    ∀ (xs ys : List String), xs ≠ [] → ys ≠ [] →
      joinWith sep (xs ++ ys) = joinWith sep xs ++ sep ++ joinWith sep ys := by
  intro xs
  induction xs with
  | nil => intro ys h _; exact absurd rfl h
  | cons x xs ih =>
    intro ys hx hy
    cases xs with
    | nil =>
      simp only [List.nil_append, List.singleton_append]
      rw [joinWith_cons sep x ys hy]
      rfl
    | cons x2 xs2 =>
      have hne : (x2 :: xs2) ++ ys ≠ [] := by simp
      rw [List.cons_append, joinWith_cons sep x _ hne,
        ih ys (by simp) hy, joinWith_cons sep x (x2 :: xs2) (by simp)]
      simp [String.append_assoc]

/-- Folding `tokSum` over an extra element on the right. -/
theorem tokSum_append (tok : String → Nat) (xs ys : List String) :
    tokSum tok (xs ++ ys) = tokSum tok xs + tokSum tok ys := by
  induction xs with
  | nil => simp [tokSum]
  | cons x xs ih => simp [tokSum, List.foldr_cons] at ih ⊢; omega

theorem tokSum_singleton (tok : String → Nat) (l : String) :
    tokSum tok [l] = tok l + 1 := by
  simp [tokSum]

/-- Master characterisation of the splitter loop: starting from an accumulator
whose running total is its `tokSum` and which, when it already holds two or
more lines, is within budget, the loop emits exactly `buildChunks` over some
grouping of the lines, the groups concatenate to accumulator-then-input, every
group is non-empty, and every multi-line group is within budget. -/
theorem splitLoop_spec (tok : String → Nat) (max : Nat) :
    ∀ (rest cur : List String) (t o : Nat), t = tokSum tok cur →
      (2 ≤ cur.length → tokSum tok cur ≤ max) →
      ∃ lss : List (List String),
        splitLoop tok max rest cur t o = buildChunks tok lss o ∧
        lss.join = cur ++ rest ∧
        (∀ ls ∈ lss, ls ≠ []) ∧
        (∀ ls ∈ lss, 2 ≤ ls.length → tokSum tok ls ≤ max) := by
  intro rest
  induction rest with
  | nil =>
    intro cur t o ht hbud
    cases cur with
    | nil =>
      exact ⟨[], by simp [splitLoop, buildChunks], by simp, by simp, by simp⟩
    | cons l ls =>
      refine ⟨[l :: ls], ?_, by simp, by simp, ?_⟩
      · simp [splitLoop, buildChunks, ht]
      · intro ls' h hlen
        simp at h
        subst h
        exact hbud hlen
  | cons line rest ih =>
    intro cur t o ht hbud
    cases cur with
    | nil =>
      simp [tokSum] at ht
      subst ht
      have hstep : splitLoop tok max (line :: rest) [] 0 o
          = splitLoop tok max rest [line] (tok line + 1) o := by
        by_cases hgt : 0 + tok line + 1 > max
        · simp [splitLoop, hgt]
        · simp [splitLoop, hgt]
      rw [hstep]
      obtain ⟨lss, heq, hj, hne, hb⟩ :=
        ih [line] (tok line + 1) o (by simp [tokSum]) (by intro h; simp at h)
      exact ⟨lss, heq, by simpa using hj, hne, hb⟩
    | cons c cs =>
      by_cases hgt : t + tok line + 1 > max
      · have hstep : splitLoop tok max (line :: rest) (c :: cs) t o
            = (joinWith "\n" (c :: cs), t, o) ::
                splitLoop tok max rest [line] (tok line + 1) (o + (c :: cs).length) := by
          simp [splitLoop, hgt]
        rw [hstep]
        obtain ⟨lss, heq, hj, hne, hb⟩ :=
          ih [line] (tok line + 1) (o + (c :: cs).length) (by simp [tokSum])
            (by intro h; simp at h)
        refine ⟨(c :: cs) :: lss, ?_, ?_, ?_, ?_⟩
        · rw [buildChunks, ← ht, ← heq]
        · simp [hj]
        · intro ls h
          rcases (List.mem_cons).mp h with h | h
          · subst h; simp
          · exact hne ls h
        · intro ls h hlen
          rcases (List.mem_cons).mp h with h | h
          · subst h; exact hbud hlen
          · exact hb ls h hlen
      · have hstep : splitLoop tok max (line :: rest) (c :: cs) t o
            = splitLoop tok max rest ((c :: cs) ++ [line]) (t + tok line + 1) o := by
          simp [splitLoop, hgt]
        rw [hstep]
        have ht' : t + tok line + 1 = tokSum tok ((c :: cs) ++ [line]) := by
          rw [tokSum_append, tokSum_singleton, ht]
          omega
        have hbud' : 2 ≤ ((c :: cs) ++ [line]).length
            → tokSum tok ((c :: cs) ++ [line]) ≤ max := by
          intro _
          rw [← ht']
          omega
        obtain ⟨lss, heq, hj, hne, hb⟩ :=
          ih ((c :: cs) ++ [line]) (t + tok line + 1) o ht' hbud'
        exact ⟨lss, heq, by simp [hj], hne, hb⟩

/-- Top-level splitter characterisation: either the whole text fits the budget
and is returned unchanged, or the output is `buildChunks` over a grouping of
the text's lines. -/
theorem split_spec (tok : String → Nat) (text : String) (max : Nat) :
    (tok text ≤ max ∧
      split_text_by_token_limit tok text max = [(text, tok text, 0)]) ∨
    (max < tok text ∧ ∃ lss : List (List String),
      split_text_by_token_limit tok text max = buildChunks tok lss 0 ∧
      lss.join = rustLines text ∧
      (∀ ls ∈ lss, ls ≠ []) ∧
      (∀ ls ∈ lss, 2 ≤ ls.length → tokSum tok ls ≤ max)) := by
  by_cases h : tok text ≤ max
  · exact Or.inl ⟨h, by simp [split_text_by_token_limit, h]⟩
  · refine Or.inr ⟨by omega, ?_⟩
    obtain ⟨lss, heq, hj, hne, hb⟩ :=
      splitLoop_spec tok max (rustLines text) [] 0 0 (by simp [tokSum]) (by simp)
    exact ⟨lss, by simp [split_text_by_token_limit, h, heq], by simpa using hj, hne, hb⟩

/-- Every member of `buildChunks` is the join of one of the groups, with its
`tokSum` as token count. -/
theorem mem_buildChunks (tok : String → Nat) :
    ∀ (lss : List (List String)) (o : Nat) (c : String × Nat × Nat),
      c ∈ buildChunks tok lss o →
      ∃ ls ∈ lss, c.1 = joinWith "\n" ls ∧ c.2.1 = tokSum tok ls := by
  intro lss
  induction lss with
  | nil => intro o c h; simp [buildChunks] at h
  | cons ls rest ih =>
    intro o c h
    rw [buildChunks] at h
    rcases (List.mem_cons).mp h with h | h
    · exact ⟨ls, by simp, by simp [h], by simp [h]⟩
    · obtain ⟨ls', hm, h1, h2⟩ := ih _ _ h
      exact ⟨ls', by simp [hm], h1, h2⟩

/-- Joining the texts of `buildChunks` recovers the join of all lines. -/
theorem buildChunks_join (tok : String → Nat) :
    ∀ (lss : List (List String)) (o : Nat), (∀ ls ∈ lss, ls ≠ []) →
      joinWith "\n" ((buildChunks tok lss o).map Prod.fst)
        = joinWith "\n" lss.join := by
  intro lss
  induction lss with
  | nil => intro o _; simp [buildChunks]
  | cons ls rest ih =>
    intro o h
    cases rest with
    | nil => simp [buildChunks, joinWith]
    | cons ls2 rest2 =>
      have hls : ls ≠ [] := h ls (by simp)
      have hls2 : ls2 ≠ [] := h ls2 (by simp)
      have hjoin_ne : (ls2 :: rest2).join ≠ [] := by
        cases ls2 with
        | nil => exact absurd rfl hls2
        | cons a l => simp
      have hbc_ne : (buildChunks tok (ls2 :: rest2) (o + ls.length)).map Prod.fst
          ≠ [] := by
        rw [buildChunks]; simp
      rw [buildChunks, List.map_cons, joinWith_cons _ _ _ hbc_ne,
        ih (o + ls.length) (fun l hl => h l (by simp [hl])),
        show (ls :: ls2 :: rest2).join = ls ++ (ls2 :: rest2).join from rfl,
        joinWith_append "\n" ls ((ls2 :: rest2).join) hls hjoin_ne]

/-- The pieces produced by `splitNLChars` contain no newline. -/
theorem splitNLChars_no_nl :
    ∀ (cs p : List Char), p ∈ splitNLChars cs → '\n' ∉ p := by
  intro cs
  induction cs with
  | nil =>
    intro p h
    simp [splitNLChars] at h
    simp [h]
  | cons c rest ih =>
    intro p h
    by_cases hc : c = '\n'
    · subst hc
      simp [splitNLChars] at h
      rcases h with h | h
      · simp [h]
      · exact ih p h
    · have hbe : (c == '\n') = false := by simp [hc]
      rw [splitNLChars, hbe] at h
      simp only [Bool.false_eq_true, if_false] at h
      rcases hsp : splitNLChars rest with _ | ⟨q, qs⟩
      · rw [hsp] at h
        simp at h
        subst h
        intro hmem
        rcases (List.mem_cons).mp hmem with hx | hx
        · exact hc hx.symm
        · simp at hx
      · rw [hsp] at h
        rcases (List.mem_cons).mp h with h | h
        · subst h
          intro hmem
          rcases (List.mem_cons).mp hmem with h | h
          · exact hc h.symm
          · exact ih q (by simp [hsp]) h
        · exact ih p (by simp [hsp, h])

/-- `splitNLChars` never returns the empty list. -/
theorem splitNLChars_ne_nil : ∀ cs : List Char, splitNLChars cs ≠ [] := by
  intro cs
  cases cs with
  | nil => simp [splitNLChars]
  | cons c rest =>
    rw [splitNLChars]
    by_cases hc : (c == '\n') = true
    · simp [hc]
    · simp only [hc, if_false]
      rcases hsp : splitNLChars rest with _ | ⟨q, qs⟩ <;> simp

/-- Stripping a trailing carriage return preserves newline-freeness. -/
theorem stripCRChars_no_nl (l : List Char) (h : '\n' ∉ l) :
    '\n' ∉ stripCRChars l := by
  rw [stripCRChars]
  split
  · intro hmem
    exact h (List.mem_of_mem_dropLast hmem)
  · exact h

/-- Every line returned by `rustLines` is newline-free. -/
theorem rustLines_no_nl (s l : String) (h : l ∈ rustLines s) :
    '\n' ∉ l.data := by
  have base2 : ∀ l', l' ∈ List.map (fun p => String.mk (stripCRChars p))
      ((splitNLChars s.data).dropLast) → '\n' ∉ l'.data := by
    intro l' hl'
    obtain ⟨p, hp, rfl⟩ := List.mem_map.mp hl'
    exact stripCRChars_no_nl p (splitNLChars_no_nl s.data p (List.mem_of_mem_dropLast hp))
  simp only [rustLines] at h
  split at h
  · rename_i last heq
    split at h
    · exact base2 l h
    · rcases List.mem_append.mp h with hm | hm
      · exact base2 l hm
      · have hl : l = String.mk last := by simpa using hm
        subst hl
        have hmem : last ∈ splitNLChars s.data := by
          obtain ⟨hne, hgl⟩ := List.mem_getLast?_eq_getLast
            (show last ∈ (splitNLChars s.data).getLast? from heq ▸ rfl)
          exact hgl ▸ List.getLast_mem hne
        exact splitNLChars_no_nl s.data last hmem
  · exact base2 l h

/-- The second component of an `enumFrom` member is a member of the list. -/
theorem snd_mem_of_mem_enumFrom :
    ∀ (l : List α) (n : Nat) (p : Nat × α), p ∈ l.enumFrom n → p.2 ∈ l := by
  intro l
  induction l with
  | nil => intro n p h; simp at h
  | cons x xs ih =>
    intro n p h
    rw [List.enumFrom] at h
    rcases (List.mem_cons).mp h with h | h
    · subst h; simp
    · exact List.mem_cons_of_mem x (ih (n + 1) p h)

/-- The second component of an `enum` member is a member of the list. -/
theorem snd_mem_of_mem_enum (l : List α) (p : Nat × α) (h : p ∈ l.enum) :
    p.2 ∈ l :=
  snd_mem_of_mem_enumFrom l 0 p h

/-- Each record emitted by `processNode` arises from one enumerated sub-chunk. -/
theorem mem_processNode (hash : String → String) (tok : String → Nat)
    (max : Nat) (fp ln : String) (node : NodeInfo) (c : ChunkData)
    (hc : c ∈ processNode hash tok max fp ln node) :
    ∃ p ∈ (split_text_by_token_limit tok (node_full_text node) max).enum,
      c = { id := chunk_id hash p.2.1 p.1
            file_path := fp
            language := ln
            chunk_type := node.kind
            chunk_name := node.name.getD "anonymous"
            context := buildContext node.ancestors
            signature := (rustLines node.rawText).headD ""
            comment := (get_preceding_comments node.prevSiblings).getD ""
            code := p.2.1
            start_line := node.startRow + 1 + p.2.2.2
            end_line := node.startRow + 1 + p.2.2.2 + min (rustLines node.rawText).length 1
            token_count := p.2.2.1 } := by
  simp only [processNode] at hc
  obtain ⟨p, hp, rfl⟩ := List.mem_map.mp hc
  exact ⟨p, hp, rfl⟩

/-- The collected ancestor renders are the renders of the scope-kinded
ancestors, in walk order. -/
theorem collectContextParts_eq (ancestors : List (String × Option String)) :
    collectContextParts ancestors
      = (ancestors.filter fun p => scope_kind p.1).map
          fun p => render_scope p.1 p.2 := by
  induction ancestors with
  | nil => rfl
  | cons p rest ih =>
    by_cases h : scope_kind p.1 <;>
      simp [collectContextParts, h, ih, List.filter_cons]

/-- When no sibling kind is whitespace-only, the collected comments are the
trimmed texts of the leading comment-kinded siblings. -/
theorem collectComments_eq (sibs : List (String × String))
    (h : ∀ p ∈ sibs, strTrim p.1 ≠ "") :
    collectComments sibs
      = (sibs.takeWhile fun p => strContainsStr p.1 "comment").map
          fun p => strTrim p.2 := by
  induction sibs with
  | nil => rfl
  | cons p rest ih =>
    obtain ⟨k, t⟩ := p
    by_cases hc : strContainsStr k "comment"
    · simp only [collectComments, hc, if_true, List.takeWhile_cons, List.map_cons]
      rw [ih (fun q hq => h q (List.mem_cons_of_mem _ hq))]
    · have hk : strTrim k ≠ "" := h (k, t) (by simp)
      simp only [collectComments, hc, List.takeWhile_cons]
      simp [hc, hk]

/-- Claim C1, as stated, fails on the code: with token counts modelled by
`String.length`, budget 2 and text `"ab\nc"`, the splitter emits a sub-chunk
whose recorded token_count is 3 > 2 although its single line's own token count
is 2, which does not exceed the budget — the claimed single-line-overflow
exception does not cover it (the loop budgets one extra token per line). -/
theorem c1_counterexample :
    ∃ c ∈ split_text_by_token_limit String.length "ab\nc" 2,
      2 < c.2.1 ∧ String.length c.1 ≤ 2 := by decide

/-- Claim C1 (amended): every sub-chunk's recorded token_count is at most the
budget, except possibly a sub-chunk consisting of a single line, whose
recorded count is that line's token count plus one (the loop's per-line
newline allowance). -/
theorem c1_token_budget (tok : String → Nat) (text : String) (max : Nat)
    (c : String × Nat × Nat) (hc : c ∈ split_text_by_token_limit tok text max) :
    c.2.1 ≤ max ∨ (c.2.1 = tok c.1 + 1 ∧ '\n' ∉ c.1.data) := by
  rcases split_spec tok text max with ⟨hle, heq⟩ | ⟨hgt, lss, heq, hj, hne, hb⟩
  · rw [heq] at hc
    simp at hc
    subst hc
    exact Or.inl hle
  · rw [heq] at hc
    obtain ⟨ls, hls, h1, h2⟩ := mem_buildChunks tok lss 0 c hc
    cases ls with
    | nil => exact absurd rfl (hne [] hls)
    | cons l ls' =>
      cases ls' with
      | nil =>
        have h1' : c.1 = l := h1
        refine Or.inr ⟨?_, ?_⟩
        · rw [h2, h1', tokSum_singleton]
        · rw [h1']
          have hl : l ∈ lss.join := List.mem_join.mpr ⟨[l], hls, by simp⟩
          rw [hj] at hl
          exact rustLines_no_nl text l hl
      | cons l2 ls'' =>
        refine Or.inl ?_
        rw [h2]
        exact hb _ hls (by simp)

/-- Witness for `c1_token_budget` at a concrete input. -/
theorem c1_token_budget_witness :
    ("ab", 3, 0) ∈ split_text_by_token_limit String.length "ab\ncd" 2 ∧
      (3 ≤ 2 ∨ (3 = String.length "ab" + 1 ∧ '\n' ∉ "ab".data)) :=
  ⟨by decide, c1_token_budget String.length "ab\ncd" 2 ("ab", 3, 0) (by decide)⟩

/-- Claim C2, as stated, fails on the code: for a text with a trailing
newline that must be split, joining the sub-chunks with one newline drops the
trailing newline (`str::lines` yields no line after it). -/
theorem c2_counterexample :
    joinWith "\n" ((split_text_by_token_limit String.length "a\nb\n" 1).map
      Prod.fst) ≠ "a\nb\n" := by decide

/-- Claim C2 (amended): joining the sub-chunk texts in order with one newline
between consecutive sub-chunks reconstructs the input exactly whenever the
input equals the newline-join of its own lines (no trailing newline, no CRLF
line endings); no lines are dropped or duplicated. -/
theorem c2_reconstruction (tok : String → Nat) (text : String) (max : Nat)
    (h : joinWith "\n" (rustLines text) = text) :
    joinWith "\n" ((split_text_by_token_limit tok text max).map Prod.fst)
      = text := by
  rcases split_spec tok text max with ⟨hle, heq⟩ | ⟨hgt, lss, heq, hj, hne, hb⟩
  · rw [heq]
    rfl
  · rw [heq, buildChunks_join tok lss 0 hne, hj, h]

/-- Witness for `c2_reconstruction` at a concrete input. -/
theorem c2_reconstruction_witness :
    joinWith "\n" (rustLines "a\nb") = "a\nb" ∧
      joinWith "\n" ((split_text_by_token_limit String.length "a\nb" 1).map
        Prod.fst) = "a\nb" :=
  ⟨by decide, c2_reconstruction String.length "a\nb" 1 (by decide)⟩

/-- Claim C3: the chunk id is a pure function of the sub-chunk text and its
ordinal: two nodes with the same preceding siblings and raw text produce
identical id sequences, whatever the file path, language label, kind, name,
position or ancestors — so two runs on identical input produce identical
ids. -/
theorem c3_id_deterministic (hash : String → String) (tok : String → Nat)
    (max : Nat) (fp fp' ln ln' : String) (n n' : NodeInfo)
    (hsib : n.prevSiblings = n'.prevSiblings) (hraw : n.rawText = n'.rawText) :
    (processNode hash tok max fp ln n).map ChunkData.id
      = (processNode hash tok max fp' ln' n').map ChunkData.id := by
  have hT : node_full_text n = node_full_text n' := by
    rw [node_full_text, node_full_text, hsib, hraw]
  simp only [processNode, List.map_map, hT]
  rfl

/-- Witness for `c3_id_deterministic` at concrete inputs differing in path,
language, kind, name, start row and ancestors. -/
theorem c3_id_deterministic_witness :
    (processNode (fun s => s) String.length 10 "x.rs" "Rust"
        { kind := "function_item", startRow := 0, rawText := "fn a",
          name := some "a", ancestors := [], prevSiblings := [] }).map
      ChunkData.id
      = (processNode (fun s => s) String.length 10 "y.rs" "Python"
          { kind := "struct_item", startRow := 41, rawText := "fn a",
            name := none, ancestors := [("mod_item", some "m")],
            prevSiblings := [] }).map ChunkData.id :=
  c3_id_deterministic (fun s => s) String.length 10 "x.rs" "y.rs" "Rust"
    "Python" _ _ rfl rfl

/-- Claim C4 is right and the code is wrong: `end_line` adds
`raw_code_bytes.lines().count().min(1)`, clamping the added line count to at
most one, so a multi-line sub-chunk is under-counted; here the record spans a
4-line code field but `end_line - start_line + 1 = 2`. -/
theorem c4_end_line_clamped :
    ∃ c ∈ processNode (fun s => s) String.length 100 "f.rs" "Rust"
        { kind := "function_item", startRow := 0, rawText := "a\nb\nc",
          name := some "f", ancestors := [], prevSiblings := [] },
      c.end_line - c.start_line + 1 ≠ (rustLines c.code).length := by decide

/-- Claim C5, as stated, fails on the code: on the split path the recorded
token_count is the sum over the sub-chunk's lines of (line token count + 1),
not the tokenizer's count of the sub-chunk's text. -/
theorem c5_counterexample :
    ∃ c ∈ split_text_by_token_limit String.length "ab\nc" 2,
      c.2.1 ≠ String.length c.1 := by decide

/-- Claim C5 (amended): a record's token_count equals the tokenizer's count of
its code exactly when the text was emitted unsplit; a split sub-chunk's
token_count is the sum over its constituent lines of (line token count + 1),
one extra token per line. -/
theorem c5_token_count (hash : String → String) (tok : String → Nat)
    (max : Nat) (fp ln : String) (node : NodeInfo) (c : ChunkData)
    (hc : c ∈ processNode hash tok max fp ln node) :
    c.token_count = tok c.code ∨
      ∃ ls : List String, ls ≠ [] ∧ c.code = joinWith "\n" ls ∧
        c.token_count = tokSum tok ls := by
  obtain ⟨p, hp, rfl⟩ := mem_processNode hash tok max fp ln node c hc
  have hmem : p.2 ∈ split_text_by_token_limit tok (node_full_text node) max :=
    snd_mem_of_mem_enum _ p hp
  obtain ⟨i, s, tkn, off⟩ := p
  rcases split_spec tok (node_full_text node) max with ⟨hle, heq⟩ |
    ⟨hgt, lss, heq, hj, hne, hb⟩
  · rw [heq] at hmem
    simp at hmem
    obtain ⟨hs, htk, _⟩ := hmem
    refine Or.inl ?_
    show tkn = tok s
    rw [hs, htk]
  · rw [heq] at hmem
    obtain ⟨ls, hls, h1, h2⟩ := mem_buildChunks tok lss 0 (s, tkn, off) hmem
    exact Or.inr ⟨ls, hne ls hls, h1, h2⟩

/-- Witness for `c5_token_count` at a concrete input (unsplit case). -/
theorem c5_token_count_witness :
    ({ id := "\na-0", file_path := "f.rs", language := "Rust",
       chunk_type := "function_item", chunk_name := "f", context := "root",
       signature := "a", comment := "", code := "\na", start_line := 1,
       end_line := 2, token_count := 2 } : ChunkData) ∈
      processNode (fun s => s) String.length 100 "f.rs" "Rust"
        { kind := "function_item", startRow := 0, rawText := "a",
          name := some "f", ancestors := [], prevSiblings := [] } ∧
      (2 = String.length "\na" ∨
        ∃ ls : List String, ls ≠ [] ∧ "\na" = joinWith "\n" ls ∧
          2 = tokSum String.length ls) :=
  ⟨by decide, c5_token_count (fun s => s) String.length 100 "f.rs" "Rust"
    { kind := "function_item", startRow := 0, rawText := "a",
      name := some "f", ancestors := [], prevSiblings := [] }
    { id := "\na-0", file_path := "f.rs", language := "Rust",
      chunk_type := "function_item", chunk_name := "f", context := "root",
      signature := "a", comment := "", code := "\na", start_line := 1,
      end_line := 2, token_count := 2 } (by decide)⟩

/-- Claim C6: the context breadcrumb lists the scope-kinded ancestors
outermost first, each rendered as `kind(name)` with `_item` and `_definition`
stripped, joined by `" > "`; a declaration nested in scopes A then B yields
`"A > B"`, and one with no enclosing named scope yields `"root"`. -/
theorem c6_context_breadcrumb :
    (∀ ancestors : List (String × Option String),
      buildContext ancestors =
        if (ancestors.filter fun p => scope_kind p.1) = [] then "root"
        else joinWith " > " (((ancestors.filter fun p => scope_kind p.1).map
          fun p => render_scope p.1 p.2).reverse)) ∧
    buildContext [("function_item", some "B"), ("mod_item", some "A")]
      = "mod(A) > function(B)" ∧
    buildContext [] = "root" := by
  refine ⟨?_, ?_, rfl⟩
  · intro ancestors
    simp only [buildContext]
    rw [collectContextParts_eq]
    by_cases h : (ancestors.filter fun p => scope_kind p.1) = []
    · simp [h]
    · simp [h, List.isEmpty_iff]
  · simp [buildContext, collectContextParts, scope_kind, render_scope,
      strReplace, replaceChars, startsWithChars, strContainsStr, containsChars,
      joinWith]

/-- Witness for `c6_context_breadcrumb` at a concrete ancestor chain. -/
theorem c6_context_breadcrumb_witness :
    buildContext [("struct_item", some "S")] = "struct(S)" := by
  rw [c6_context_breadcrumb.1 [("struct_item", some "S")]]
  simp [scope_kind, render_scope, strReplace, replaceChars, startsWithChars,
    strContainsStr, containsChars, joinWith, List.filter]

/-- Claim C7, as stated, fails on the code: each collected comment text is
trimmed before joining, so a comment sibling with trailing whitespace is not
reproduced exactly. -/
theorem c7_counterexample :
    get_preceding_comments [("line_comment", "// hi ")] = some "// hi" ∧
      "// hi" ≠ joinWith "\n" ["// hi "] :=
  ⟨by decide, by decide⟩

/-- Claim C7 (amended): the comment field is the contiguous block of preceding
comment-kinded siblings, collected backwards until the first non-comment
sibling, each text trimmed of surrounding whitespace, reversed to source order
and joined with newlines; no preceding comments yield the empty string, never
an error (stated for sibling chains with no whitespace-only kind, which the
walk would skip). -/
theorem c7_comment_attachment :
    (∀ sibs : List (String × String), (∀ p ∈ sibs, strTrim p.1 ≠ "") →
      (get_preceding_comments sibs).getD ""
        = joinWith "\n" (((sibs.takeWhile fun p =>
            strContainsStr p.1 "comment").map fun p => strTrim p.2).reverse)) ∧
    (∀ (hash : String → String) (tok : String → Nat) (max : Nat)
      (fp ln : String) (node : NodeInfo) (c : ChunkData),
      c ∈ processNode hash tok max fp ln node →
        c.comment = (get_preceding_comments node.prevSiblings).getD "") := by
  constructor
  · intro sibs h
    simp only [get_preceding_comments]
    rw [collectComments_eq sibs h]
    by_cases he : ((sibs.takeWhile fun p => strContainsStr p.1 "comment").map
        fun p => strTrim p.2) = []
    · simp [he, joinWith]
    · simp [he, List.isEmpty_iff]
  · intro hash tok max fp ln node c hc
    obtain ⟨p, hp, rfl⟩ := mem_processNode hash tok max fp ln node c hc
    rfl

/-- Witness for `c7_comment_attachment` at a concrete sibling chain: two
contiguous comments above the declaration, then an earlier declaration. -/
theorem c7_comment_attachment_witness :
    (get_preceding_comments [("line_comment", "// b"), ("line_comment", "// a"),
        ("function_item", "fn x(){}")]).getD "" = "// a\n// b" :=
  (c7_comment_attachment.1 [("line_comment", "// b"), ("line_comment", "// a"),
    ("function_item", "fn x(){}")] (by decide)).trans (by decide)

/-- Claim C8, as stated, fails on the code: the extension is lowercased
before the registry lookup, so the extension "RS" — which has no registered
driver — is not skipped: the file is processed and emits records. -/
theorem c8_counterexample :
    get_driver "RS" = none ∧
      ∃ recs, process_file (fun s => s) String.length 100 "f" "RS" "c"
          [{ kind := "function_item", startRow := 0, rawText := "a",
             name := some "f", ancestors := [], prevSiblings := [] }]
        = Except.ok recs ∧ recs ≠ [] := by
  refine ⟨by decide, _, rfl, ?_⟩
  decide

/-- Claim C8 (amended): a file whose lowercased extension has no registered
driver (its lowercase form is neither "rs" nor "py") emits zero records and
returns success, with no error surfaced. -/
theorem c8_unsupported_extension :
    (∀ e : String, get_driver e = none ↔ e ≠ "rs" ∧ e ≠ "py") ∧
    ∀ (hash : String → String) (tok : String → Nat) (max : Nat)
      (fp ext content : String) (nodes : List NodeInfo),
      get_driver (strToLower ext) = none →
        process_file hash tok max fp ext content nodes = Except.ok [] := by
  constructor
  · intro e
    constructor
    · intro h
      constructor <;> intro he <;> subst he <;> simp [get_driver] at h
    · rintro ⟨h1, h2⟩
      simp [get_driver, h1, h2]
  · intro hash tok max fp ext content nodes h
    simp [process_file, h]

/-- Witness for `c8_unsupported_extension` at a concrete extension. -/
theorem c8_unsupported_extension_witness :
    get_driver (strToLower "TXT") = none ∧
      process_file (fun s => s) String.length 100 "f" "TXT" "c" []
        = Except.ok [] :=
  ⟨by decide, c8_unsupported_extension.2 (fun s => s) String.length 100 "f"
    "TXT" "c" [] (by decide)⟩

/-- Claim C9: name extraction returns the `name` field's text when present;
for a Rust `impl_item` without one it falls back to the `type` field;
otherwise it returns no name, and the emitted chunk_name is then
"anonymous". -/
theorem c9_name_extraction :
    (∀ (n : NameFields) (t : String), n.nameField = some t →
      rust_extract_name n = some t) ∧
    (∀ n : NameFields, n.nameField = none → n.kind = "impl_item" →
      rust_extract_name n = n.typeField) ∧
    (∀ n : NameFields, n.nameField = none → n.kind ≠ "impl_item" →
      rust_extract_name n = none) ∧
    (∀ (hash : String → String) (tok : String → Nat) (max : Nat)
      (fp ln : String) (node : NodeInfo) (c : ChunkData),
      c ∈ processNode hash tok max fp ln node → node.name = none →
        c.chunk_name = "anonymous") := by
  refine ⟨?_, ?_, ?_, ?_⟩
  · intro n t h
    simp [rust_extract_name, h]
  · intro n h hk
    simp [rust_extract_name, h, hk]
  · intro n h hk
    simp [rust_extract_name, h, hk]
  · intro hash tok max fp ln node c hc hn
    obtain ⟨p, hp, rfl⟩ := mem_processNode hash tok max fp ln node c hc
    show node.name.getD "anonymous" = "anonymous"
    rw [hn]
    rfl

/-- Witness for `c9_name_extraction` at a concrete node: an `impl_item` with
no name field falls back to its type field. -/
theorem c9_name_extraction_witness :
    rust_extract_name
        { kind := "impl_item", nameField := none, typeField := some "Foo" }
      = some "Foo" :=
  (c9_name_extraction.2.1
    { kind := "impl_item", nameField := none, typeField := some "Foo" }
    rfl rfl).trans rfl

/-- Claim C10, as stated, fails on the code: for a split declaration with no
preceding comments, only the first sub-chunk can carry the leading newline
(here the empty leading line is flushed alone, and the later code fields
start directly with declaration text). -/
theorem c10_counterexample :
    get_preceding_comments ([] : List (String × String)) = none ∧
      ∃ c ∈ processNode (fun s => s) String.length 4 "f.rs" "Rust"
          { kind := "function_item", startRow := 0, rawText := "abc\ndef",
            name := some "f", ancestors := [], prevSiblings := [] },
        startsWithChars "\n".data c.code.data = false :=
  ⟨rfl, by decide⟩

/-- Claim C10 (amended): the text handed to the splitter is always the comment
block, one newline, then the raw declaration text; for a declaration with no
preceding comments whose comment-prefixed text fits the budget, the single
emitted code field begins with the extra leading newline; and on the split
path the sub-chunks partition the lines of the comment-prefixed text with
cumulative line offsets, so offsets count lines of that text (including the
leading empty line), not of the declaration body alone. -/
theorem c10_comment_prefix :
    (∀ node : NodeInfo, node_full_text node
      = ((get_preceding_comments node.prevSiblings).getD "") ++ "\n"
          ++ node.rawText) ∧
    (∀ (hash : String → String) (tok : String → Nat) (max : Nat)
      (fp ln : String) (node : NodeInfo),
      get_preceding_comments node.prevSiblings = none →
      tok (node_full_text node) ≤ max →
      ∀ c ∈ processNode hash tok max fp ln node,
        startsWithChars "\n".data c.code.data = true) ∧
    (∀ (tok : String → Nat) (max : Nat) (node : NodeInfo),
      max < tok (node_full_text node) →
      ∃ lss : List (List String),
        split_text_by_token_limit tok (node_full_text node) max
          = buildChunks tok lss 0 ∧
        lss.join = rustLines (node_full_text node)) := by
  refine ⟨fun node => rfl, ?_, ?_⟩
  · intro hash tok max fp ln node hnone hle c hc
    obtain ⟨p, hp, rfl⟩ := mem_processNode hash tok max fp ln node c hc
    have heq : split_text_by_token_limit tok (node_full_text node) max
        = [(node_full_text node, tok (node_full_text node), 0)] := by
      simp [split_text_by_token_limit, hle]
    rw [heq] at hp
    simp [List.enum, List.enumFrom] at hp
    have hdata : (node_full_text node).data = '\n' :: node.rawText.data := by
      rw [node_full_text, hnone]
      show (((Option.getD none "") ++ "\n") ++ node.rawText).data = _
      rw [String.data_append, String.data_append]
      rfl
    subst hp
    show startsWithChars "\n".data (node_full_text node).data = true
    rw [hdata]
    simp [startsWithChars]
  · intro tok max node hmax
    rcases split_spec tok (node_full_text node) max with ⟨hle, _⟩ |
      ⟨_, lss, heq, hj, _, _⟩
    · omega
    · exact ⟨lss, heq, hj⟩

/-- Witness for `c10_comment_prefix` at a concrete comment-free node whose
text fits the budget. -/
theorem c10_comment_prefix_witness :
    startsWithChars "\n".data "\na".data = true :=
  c10_comment_prefix.2.1 (fun s => s) String.length 10 "f.rs" "Rust"
    { kind := "function_item", startRow := 0, rawText := "a", name := some "f",
      ancestors := [], prevSiblings := [] } (by decide) (by decide)
    { id := "\na-0", file_path := "f.rs", language := "Rust",
      chunk_type := "function_item", chunk_name := "f", context := "root",
      signature := "a", comment := "", code := "\na", start_line := 1,
      end_line := 2, token_count := 2 } (by decide)
